import Mathlib

/-!
Verification of the koishi session-dispatch core
(src/packages/core/src/internal.ts) against its specification.

The development shallowly embeds the relevant parts of the source:

* `SharedCache` — the refcounted cache class (internal.ts lines 252-281),
  with the JS object `#keyMap` modelled as an insertion-ordered association
  list and the JS `Set` of referrers as a duplicate-free list.
* the dispatch loop of `Internal._handleMessage` (lines 191-239), including
  the reentrant `next` closure, modelled as a fuel-indexed interpreter `run`
  over a state `DState` carrying the session registry, both caches, the
  middleware queue, the shared cursor and an observation trace.  Middleware
  handler bodies are given by the small inductive `Handler` covering the
  behaviours a handler can show to the dispatcher (pass through, return a
  fragment, return nothing, throw, call `next` with a continuation value).
* `Internal._process` (lines 116-189) together with `_stripNickname`
  (105-114) and `_resolvePrefixes` (99-103); message text is modelled as a
  `List Char` so that the JS string primitives `startsWith`/`slice` become
  plain list operations.

External collaborators (satori's `segment`, the localization behind
`session.text`, the database records behind `observeUser`/`observeChannel`)
are modelled at the boundary: their outputs are inputs of the embedded
functions, and `session.text` is an opaque fragment constructor.
-/

/-! ## SharedCache (internal.ts lines 244-281) -/

/-- `SharedCache.Entry<T>`: `{ value, key, refs: Set<string> }`. -/
structure SCEntry (α : Type) where
  value : α
  key : String
  refs : List String
deriving DecidableEq, Repr

/-- `SharedCache<T>` with its private `#keyMap`, a JS object used as an
insertion-ordered map from key to entry. -/
structure SharedCache (α : Type) where
  keyMap : List (String × SCEntry α)
deriving DecidableEq, Repr

/-- The fresh cache `Object.create(null)`. -/
def SharedCache.empty {α : Type} : SharedCache α := ⟨[]⟩

/-- `Set.add`: adds the referrer if it is not present yet. -/
def addRef (r : String) (refs : List String) : List String :=
  if r ∈ refs then refs else refs ++ [r]

/-- In-place update of the entry stored under `key` (JS mutates the entry
object reachable through `#keyMap[key]`). -/
def updateKey {α : Type} (key : String) (e : SCEntry α)
    (l : List (String × SCEntry α)) : List (String × SCEntry α) :=
  l.map (fun p => if p.1 = key then (key, e) else p)

/-- `#keyMap[key]` property access, as used by `get` and `set`. -/
def SharedCache.lookup {α : Type} (c : SharedCache α) (key : String) :
    Option (SCEntry α) :=
  (c.keyMap.find? (fun p => p.1 = key)).map (fun p => p.2)

/-- `get(ref, key)`: absent keys return the absent sentinel (`undefined`);
present keys register `ref` in the entry's referrer set and return the
value. -/
def SharedCache.get {α : Type} (c : SharedCache α) (ref key : String) :
    Option α × SharedCache α :=
  match c.keyMap.find? (fun p => p.1 = key) with
  | none => (none, c)
  | some p =>
    (some p.2.value, ⟨updateKey key { p.2 with refs := addRef ref p.2.refs } c.keyMap⟩)

/-- `set(ref, key, value)`: overwrites the value of an existing entry or
creates a fresh entry with an empty referrer set, then adds `ref`. -/
def SharedCache.set {α : Type} (c : SharedCache α) (ref key : String) (v : α) :
    SharedCache α :=
  match c.keyMap.find? (fun p => p.1 = key) with
  | some p => ⟨updateKey key { p.2 with value := v, refs := addRef ref p.2.refs } c.keyMap⟩
  | none => ⟨c.keyMap ++ [(key, ⟨v, key, addRef ref []⟩)]⟩

/-- The loop body of `delete(ref)` for one entry: remove `ref` from the
referrer set; evict the entry (`none`) when the set became empty. -/
def delEntry {α : Type} (ref : String) (p : String × SCEntry α) :
    Option (String × SCEntry α) :=
  let refs := p.2.refs.filter (fun x => x ≠ ref)
  if refs.isEmpty then none else some (p.1, { p.2 with refs := refs })

/-- `delete(ref)`: scans all entries, removes `ref` from each referrer set
and evicts every entry whose referrer set became empty. -/
def SharedCache.delete {α : Type} (c : SharedCache α) (ref : String) :
    SharedCache α :=
  ⟨c.keyMap.filterMap (delEntry ref)⟩

/-- One `get`/`set` operation of a client session against the cache. -/
inductive COp where
  | getOp (ref key : String)
  | setOp (ref key : String) (v : Nat)
deriving DecidableEq, Repr

/-- The referrer performing an operation. -/
def COp.refOf : COp → String
  | .getOp r _ => r
  | .setOp r _ _ => r

/-- Apply one operation (the value returned by `get` is discarded; only the
cache state matters here). -/
def applyOp (c : SharedCache Nat) : COp → SharedCache Nat
  | .getOp r k => (c.get r k).2
  | .setOp r k v => c.set r k v

/-- Run a sequence of `get`/`set` operations. -/
def applyOps (ops : List COp) (c : SharedCache Nat) : SharedCache Nat :=
  ops.foldl applyOp c

/-! ## Dispatch loop of `Internal._handleMessage` (internal.ts lines 191-239)

The `next` closure (lines 203-222) is reentrant: it shares the mutable
`queue`, `index` and `this._sessions` with every other invocation.  We embed
it as a structurally recursive interpreter on a fuel argument; every
recursive step (entering an entry, entering a handler body, a handler
calling `next` again) consumes one unit of fuel, so any terminating concrete
execution is reproduced exactly by a large enough fuel. -/

/-- A reply fragment.  `session.text(path, param)` of the external
localization collaborator is the opaque constructor `localized`. -/
inductive Frag where
  | text (s : String)
  | localized (path : List String) (param : List (String × String))
deriving DecidableEq, Repr

/-- JS truthiness of a fragment result (`if (result) await session.send(result)`):
the empty string is falsy, any other fragment is truthy. -/
def fragTruthy : Frag → Bool
  | .text s => s ≠ ""
  | .localized _ _ => true

/-- The errors a handler or `next` itself can throw: the domain
`SessionError` (internal.ts lines 24-28, carrying a message path and
parameters) or any other JS error. -/
inductive JsError where
  | sessionError (path : List String) (param : List (String × String))
  | genericError (msg : String)
deriving DecidableEq, Repr

mutual
/-- The behaviours a middleware handler can show to the dispatch loop.
`pass` is `(s, next) => next()`; `ret` returns a fragment without calling
`next`; `stop` returns `undefined` without calling `next` (e.g. a policy
abort inside `_process`); `throwE` throws; `nextStr`/`nextFn` call `next`
with a continuation value (a literal reply fragment or a spliced-in
handler) and return its result. -/
inductive Handler where
  | pass
  | ret (f : Frag)
  | stop
  | throwE (e : JsError)
  | nextStr (s : String)
  | nextFn (lab : Nat) (h : Handler)
deriving DecidableEq, Repr
end

/-- A continuation value passed to `next` (`Next.Callback`, minus the
`undefined` case which is `none` at the call site). -/
inductive CBVal where
  | strCb (s : String)
  | fnCb (lab : Nat) (h : Handler)
deriving DecidableEq, Repr

/-- A queue entry: either a registered middleware bound to the session
(`mid`, tagged with a label so the trace can name it), or an entry pushed by
`queue.push(next => Next.compose(callback, next))`. -/
inductive QEntry where
  | mid (lab : Nat) (h : Handler)
  | comp (c : CBVal)
deriving DecidableEq, Repr

/-- Observations recorded by the model: handler invocations, the evaluation
of a pushed string continuation, the three kinds of logged errors (the
stack-exceeded log records the queue length that triggered it), replies
sent, event-bus emissions, and the teardown steps. -/
inductive Ev where
  | invoked (lab : Nat)
  | composedStr (s : String)
  | loggedStack (len : Nat)
  | loggedIsolated
  | loggedGeneric (msg : String)
  | sent (f : Frag)
  | emitted (name : String)
  | deregistered (sid : String)
  | releasedUser (sid : String)
  | releasedChannel (sid : String)
  | flushed (kind : String)
deriving DecidableEq, Repr

/-- Events produced inside the dispatch recursion (never the teardown or
send events). -/
def dispatchEv : Ev → Bool
  | .invoked _ => true
  | .composedStr _ => true
  | .loggedStack _ => true
  | .loggedIsolated => true
  | .loggedGeneric _ => true
  | _ => false

/-- The shared mutable state of one dispatch: `this._sessions` (the session
registry, a set of ids), both caches, the per-dispatch `queue` and `index`,
and the observation trace. -/
structure DState where
  sessions : List String
  userCache : SharedCache Nat
  channelCache : SharedCache Nat
  queue : List QEntry
  index : Nat
  events : List Ev
deriving DecidableEq, Repr

/-- `Next.MAX_DEPTH` (internal.ts line 38). -/
def Next.MAX_DEPTH : Nat := 64

/-- Lines 208-213: if a continuation value was supplied it is pushed onto
the queue, and the stack-exceeded error fires exactly when the queue length
after the push exceeds `Next.MAX_DEPTH`.  Returns the new queue and whether
the error was thrown. -/
def pushStep : Option CBVal → List QEntry → List QEntry × Bool
  | none, q => (q, false)
  | some c, q =>
    let q2 := q ++ [QEntry.comp c]
    (q2, decide (Next.MAX_DEPTH < q2.length))

/-- The three mutually recursive activities of the dispatch loop, disposed
of one fuel-indexed interpreter: an invocation of `next`, the invocation of
a queue entry, and the execution of a handler body. -/
inductive Job where
  | nextJ (cb : Option CBVal)
  | entryJ (e : QEntry)
  | handlerJ (h : Handler)
deriving DecidableEq, Repr

/-- The `catch` block of `next` (internal.ts lines 215-221): a
`SessionError` becomes the localized reply `session.text(error.path,
error.param)`; any other error is logged (with the triggering content and
stack) and swallowed. -/
def catchErrors (r : Except JsError (Option Frag)) (st : DState) :
    Option Frag × DState :=
  match r with
  | Except.ok v => (v, st)
  | Except.error (JsError.sessionError p prm) => (some (Frag.localized p prm), st)
  | Except.error (JsError.genericError m) =>
    (none, { st with events := st.events ++ [Ev.loggedGeneric m] })

/-- The dispatch interpreter.  The `nextJ` case is the body of `next`
(internal.ts lines 203-222): its `try` block checks the session registry,
performs the push step, then invokes `queue[index++]?.(next)` (note the
cursor is incremented even when the queue is exhausted, exactly as the JS
post-increment does); errors raised inside the `try` — the isolation check,
the depth check, and whatever the invoked entry throws — are handled by
`catchErrors`, so `nextJ` never returns `.error`.  The `entryJ` case runs
one queue entry (a bound middleware, or a pushed
`next => Next.compose(callback, next)` closure).  The `handlerJ` case runs
a handler body. -/
def run : Nat → String → Job → DState → Except JsError (Option Frag) × DState
  | 0, _, _, st => (Except.ok none, st)
  | Nat.succ fuel, sid, Job.nextJ cb, st =>
    if sid ∈ st.sessions then
      let pr := pushStep cb st.queue
      if pr.2 then
        (Except.ok none,
          { st with queue := pr.1, events := st.events ++ [Ev.loggedStack pr.1.length] })
      else
        let st1 : DState := { st with queue := pr.1, index := st.index + 1 }
        match pr.1[st.index]? with
        | none => (Except.ok none, st1)
        | some e =>
          let c2 := catchErrors (run fuel sid (Job.entryJ e) st1).1
            (run fuel sid (Job.entryJ e) st1).2
          (Except.ok c2.1, c2.2)
    else
      (Except.ok none, { st with events := st.events ++ [Ev.loggedIsolated] })
  | Nat.succ fuel, sid, Job.entryJ e, st =>
    match e with
    | QEntry.mid lab h =>
      run fuel sid (Job.handlerJ h) { st with events := st.events ++ [Ev.invoked lab] }
    | QEntry.comp (CBVal.strCb s) =>
      (Except.ok (some (Frag.text s)), { st with events := st.events ++ [Ev.composedStr s] })
    | QEntry.comp (CBVal.fnCb lab h) =>
      run fuel sid (Job.handlerJ h) { st with events := st.events ++ [Ev.invoked lab] }
  | Nat.succ fuel, sid, Job.handlerJ h, st =>
    match h with
    | Handler.pass => run fuel sid (Job.nextJ none) st
    | Handler.ret f => (Except.ok (some f), st)
    | Handler.stop => (Except.ok none, st)
    | Handler.throwE e => (Except.error e, st)
    | Handler.nextStr s => run fuel sid (Job.nextJ (some (CBVal.strCb s))) st
    | Handler.nextFn lab h2 => run fuel sid (Job.nextJ (some (CBVal.fnCb lab h2))) st

/-- One invocation of the `next` closure.  Because its whole body sits in a
`try`/`catch` that converts or swallows every error, `next` always resolves;
the `.error` arm below is unreachable. -/
def runNext (fuel : Nat) (sid : String) (cb : Option CBVal) (st : DState) :
    Option Frag × DState :=
  match run fuel sid (Job.nextJ cb) st with
  | (Except.ok r, st2) => (r, st2)
  | (Except.error _, st2) => (none, st2)

/-- The data of `session` used by `_handleMessage` itself: the ids compared
on line 193, and whether `session.user` / `session.channel` / `session.guild`
are attached at teardown (deciding which `$update()` flushes run). -/
structure SessionInfo where
  id : String
  selfId : String
  userId : String
  hasUser : Bool
  hasChannel : Bool
  hasGuild : Bool
deriving DecidableEq, Repr

/-- `this._sessions[session.id] = session`. -/
def insertId (sid : String) (l : List String) : List String :=
  if sid ∈ l then l else l ++ [sid]

/-- The flush steps of the finalizer (`session.user?.$update()` etc.),
recorded as events in order. -/
def flushEvents (sess : SessionInfo) : List Ev :=
  (if sess.hasUser then [Ev.flushed "user"] else [])
    ++ (if sess.hasChannel then [Ev.flushed "channel"] else [])
    ++ (if sess.hasGuild then [Ev.flushed "guild"] else [])

/-- The `finally` block (internal.ts lines 227-238): deregister the session
id, emit the "middleware" notification, release this session's referrer
hold in the user cache and the channel cache, then flush the attached
records. -/
def teardown (sess : SessionInfo) (st : DState) : DState :=
  { st with
    sessions := st.sessions.filter (fun x => x ≠ sess.id),
    userCache := st.userCache.delete sess.id,
    channelCache := st.channelCache.delete sess.id,
    events := st.events
      ++ [Ev.deregistered sess.id, Ev.emitted "middleware",
          Ev.releasedUser sess.id, Ev.releasedChannel sess.id]
      ++ flushEvents sess }

/-- `this._hooks.filter(([context]) => context.filter(session)).map(...)`:
each registered hook is the result of its context filter on this session, a
label and a handler body; the filtered queue keeps the accepted ones in
registration order. -/
def filteredQueue (hooks : List (Bool × Nat × Handler)) : List QEntry :=
  (hooks.filter (fun h => h.1)).map (fun h => QEntry.mid h.2.1 h.2.2)

/-- Line 226: `if (result) await session.send(result)` — a truthy fragment
bubbling out of the top-level `next()` is sent. -/
def sendStep (r : Option Frag) (st : DState) : DState :=
  match r with
  | some f => if fragTruthy f then { st with events := st.events ++ [Ev.sent f] } else st
  | none => st

/-- `Internal._handleMessage` (internal.ts lines 191-239): self messages
return immediately; otherwise the session is registered, the filtered queue
snapshot is built, `next()` runs the chain, a truthy result is sent, and the
`finally` finalizer always runs. -/
def handleMessage (sess : SessionInfo) (hooks : List (Bool × Nat × Handler))
    (fuel : Nat) (st0 : DState) : DState :=
  if sess.selfId = sess.userId then st0
  else
    let st1 : DState :=
      { st0 with
        sessions := insertId sess.id st0.sessions,
        queue := filteredQueue hooks,
        index := 0 }
    let r := runNext fuel sess.id none st1
    teardown sess (sendStep r.1 r.2)

/-! ## NameMatcher and AttachPipeline: `Internal._process` (lines 116-189)

Message text is a `List Char` (one JS string position per `Char`; every
character the claims touch is in the basic plane, where JS string indices
and characters agree).  `str` turns a Lean string literal into that
representation. -/

def str (s : String) : List Char := s.data

/-- The JS `\s` whitespace class (the members relevant to chat text; the
claims only ever use the plain space). -/
def isJsWs (c : Char) : Bool :=
  c == ' ' || c == '\t' || c == '\n' || c == '\r' || c == '\x0b' || c == '\x0c'
    || c == ' ' || c == '﻿'

/-- JS `trimStart`. -/
def jsTrimStart (l : List Char) : List Char := l.dropWhile isJsWs

/-- JS `trim`. -/
def jsTrim (l : List Char) : List Char :=
  ((l.dropWhile isJsWs).reverse.dropWhile isJsWs).reverse

/-- JS `a.startsWith(b)` on the `List Char` representation. -/
def listIsPrefixOf : List Char → List Char → Bool
  | [], _ => true
  | _ :: _, [] => false
  | a :: as, b :: bs => a == b && listIsPrefixOf as bs

/-- The regex `^([,，]\s*|\s+)` of `_stripNickname` (line 110): the length
of the separator match, or `none` when the rest does not start with a
separator.  The first alternative eats a comma and any following
whitespace, the second one or more whitespace characters. -/
def sepMatchLen : List Char → Option Nat
  | [] => none
  | c :: cs =>
    if c == ',' || c == '，' then some (1 + (cs.takeWhile isJsWs).length)
    else if isJsWs c then some (1 + (cs.takeWhile isJsWs).length)
    else none

/-- The body of the `for` loop of `_stripNickname` for one nickname: if the
content starts with the nickname and the rest starts with a separator,
return the rest with the separator removed. -/
def nickMatch (nick content : List Char) : Option (List Char) :=
  if listIsPrefixOf nick content then
    let rest := content.drop nick.length
    match sepMatchLen rest with
    | some len => some (rest.drop len)
    | none => none
  else none

/-- The `for` loop of `_stripNickname` (lines 107-113): first nickname in
configured order whose match succeeds wins. -/
def goNick : List (List Char) → List Char → Option (List Char)
  | [], _ => none
  | n :: rest, content =>
    match nickMatch n content with
    | some r => some r
    | none => goNick rest content

/-- `Internal._stripNickname` (lines 105-114): a leading `@` is removed
first, then the nicknames are tried in configured order. -/
def stripNickname (nicknames : List (List Char)) (content : List Char) :
    Option (List Char) :=
  goNick nicknames (match content with | '@' :: cs => cs | _ => content)

/-- `segment.escape` of the satori collaborator (applied by
`_resolvePrefixes` so prefixes compare against element-encoded content).
Modelled from the spec: "context-sensitive escaping of any regex-special
characters if the prefix source is itself treated as a literal" — the
encoder escapes the markup characters. -/
def escChar (c : Char) : List Char :=
  if c == '&' then str "&amp;"
  else if c == '<' then str "&lt;"
  else if c == '>' then str "&gt;"
  else [c]

/-- Escape a whole string. -/
def segEscape (l : List Char) : List Char := (l.map escChar).flatten

/-- `Internal._resolvePrefixes` (lines 99-103).  `session.resolveValue`
resolving the (possibly per-session dynamic) `config.prefix` is external;
its result is the input here: an array is used as is, a plain string is
wrapped, a missing value falls back to `['']` (so the empty-string prefix
matches every message by default). -/
def resolvePrefixes (v : Option (List Char ⊕ List (List Char))) :
    List (List Char) :=
  (match v with
   | some (Sum.inr l) => l
   | some (Sum.inl s) => [s]
   | none => [str ""]).map segEscape

/-- One step of the prefix loop (lines 146-150): a matching prefix is
recorded and stripped; a non-matching one leaves the accumulator alone.
Note the source loop has no `break`. -/
def prefStep (acc : Option (List Char) × List Char) (p : List Char) :
    Option (List Char) × List Char :=
  if listIsPrefixOf p acc.2 then (some p, acc.2.drop p.length) else acc

/-- The whole prefix loop, over the resolved prefix list. -/
def applyPrefixes (ps : List (List Char)) (content : List Char) :
    Option (List Char) × List Char :=
  ps.foldl prefStep (none, content)

/-- A structured content element, as far as `_process` inspects one: a
mention (`at`) element with its target id, or a text element with its
(decoded) text. -/
inductive MsgElement where
  | atEl (id : List Char)
  | textEl (content : List Char)
deriving DecidableEq, Repr

/-- The element-encoded form used by `elements.join('')` (line 130):
mention elements print as their tag, text elements as their escaped
content. -/
def elementToChars : MsgElement → List Char
  | .atEl id => str "<at id=" ++ ['"'] ++ id ++ ['"'] ++ str "/>"
  | .textEl s => segEscape s

/-- `elements.join('')`. -/
def joinElements (els : List MsgElement) : List Char :=
  (els.map elementToChars).flatten

/-- The mention-stripping `while` loop (lines 124-135), indexed by a fuel
argument so the recursion is structural: every iteration shifts at least
one element, so fuel equal to the element count reproduces the loop
exactly.  Each iteration shifts the leading `at` element, sets `atSelf`
when it targets the bot, recomputes the content from the remaining
elements, and drops a now-leading all-whitespace text element. -/
def stripMentionsF (selfId : List Char) :
    Nat → List MsgElement → List Char → Bool → List MsgElement × List Char × Bool
  | Nat.succ fuel, MsgElement.atEl id :: rest, _content, atSelf =>
    let atSelf2 := atSelf || id == selfId
    let content2 := jsTrimStart (joinElements rest)
    match rest with
    | MsgElement.textEl s :: r2 =>
      if jsTrim s == [] then stripMentionsF selfId fuel r2 content2 atSelf2
      else stripMentionsF selfId fuel rest content2 atSelf2
    | _ => stripMentionsF selfId fuel rest content2 atSelf2
  | _, els, content, atSelf => (els, content, atSelf)

/-- The mention-stripping loop at its natural fuel. -/
def stripMentions (selfId : List Char) (els : List MsgElement)
    (content : List Char) (atSelf : Bool) : List MsgElement × List Char × Bool :=
  stripMentionsF selfId els.length els content atSelf

/-- Did the element list start with a mention (`hasMention` after the
loop)? -/
def headIsAt : List MsgElement → Bool
  | MsgElement.atEl _ :: _ => true
  | _ => false

/-- The per-session configuration of `Internal`: the ordered nickname list
and the resolved prefix source (see `resolvePrefixes`). -/
structure IConfig where
  nickname : List (List Char)
  prefixVal : Option (List Char ⊕ List (List Char))
deriving DecidableEq, Repr

/-- The session data `_process` reads. -/
structure PSession where
  content : List Char
  elements : List MsgElement
  selfId : List Char
  subtype : List Char
deriving DecidableEq, Repr

/-- The parsed message stored on the session (line 154).  The recorded
prefix is called `resolvedPrefix` here because `prefix` is a Lean
keyword. -/
structure Parsed where
  content : List Char
  appel : Bool
  resolvedPrefix : Option (List Char)
deriving DecidableEq, Repr

/-- Lines 117-154 of `_process`: trim, strip mentions, then (only when
there was no mention or the mention hit the bot) strip nickname and run the
prefix loop.  Returns the parsed triple and the `atSelf` flag (needed later
by the assignee gate).  `appel` equals `atSelf` after the loop, and the
nickname strip only fires when its result is truthy, i.e. nonempty. -/
def parsePhase (cfg : IConfig) (sess : PSession) : Parsed × Bool :=
  let content0 := jsTrim sess.content
  let r := stripMentions sess.selfId sess.elements content0 false
  let content1 := r.2.1
  let atSelf := r.2.2
  let hasMention := headIsAt sess.elements
  if !hasMention || atSelf then
    let nk :=
      match stripNickname cfg.nickname content1 with
      | some rr => if rr == [] then (atSelf, content1) else (true, rr)
      | none => (atSelf, content1)
    let pr := applyPrefixes (resolvePrefixes cfg.prefixVal) nk.2
    (⟨pr.2, nk.1, pr.1⟩, atSelf)
  else (⟨content1, atSelf, none⟩, atSelf)

/-- `Channel.Flag.ignore`.  Modelled from the spec: `Channel` lives in
src/packages/core/src/database.ts which is not part of the sources; the
spec describes `flag` as "a `flag` bitmask (policy bits such as *ignore*)",
so the ignore bit is modelled as a fixed nonzero mask. -/
def Channel.Flag.ignore : Nat := 1

/-- `User.Flag.ignore`.  Modelled from the spec, as for `Channel.Flag.ignore`. -/
def User.Flag.ignore : Nat := 1

/-- The environment of the attach pipeline for one session: whether a
database is configured, the observed channel record's gate fields, the
observed user record's gate field, and the short-circuit results of the
serial `attach-channel` / `attach-user` emissions. -/
structure DbEnv where
  hasDatabase : Bool
  channelFlag : Nat
  channelAssignee : List Char
  attachChannelHook : Bool
  userFlag : Nat
  attachUserHook : Bool
deriving DecidableEq, Repr

/-- Did `_process` abort (return without calling `next`), or call
`next()`? -/
inductive PExit where
  | aborted
  | calledNext
deriving DecidableEq, Repr

/-- What `_process` did: the parsed message it stored, the notifications it
emitted in order, and whether it reached `next()`. -/
structure POut where
  parsed : Parsed
  emitted : List String
  exit : PExit
deriving DecidableEq, Repr

/-- Lines 174-188: attach the user record, run the `attach-user` serial
gate, apply the user *ignore* flag gate, and only then emit `attach` and
call `next()`. -/
def attachUserPhase (env : DbEnv) (evs : List String) (parsed : Parsed) : POut :=
  let evs2 := evs ++ ["before-attach-user", "attach-user"]
  if env.attachUserHook then ⟨parsed, evs2, PExit.aborted⟩
  else if (env.userFlag &&& User.Flag.ignore) != 0 then ⟨parsed, evs2, PExit.aborted⟩
  else ⟨parsed, evs2 ++ ["attach"], PExit.calledNext⟩

/-- `Internal._process` (lines 116-189).  After the parse phase it emits
`before-attach`; with a database configured, a group session first attaches
the channel record and applies the channel gates (serial short-circuit,
*ignore* flag, assignee ownership), then every session attaches the user
record and applies the user gates; every gate returns without calling
`next`. -/
def process (cfg : IConfig) (sess : PSession) (env : DbEnv) : POut :=
  let pa := parsePhase cfg sess
  let parsed := pa.1
  let atSelf := pa.2
  let evs0 : List String := ["before-attach"]
  if env.hasDatabase then
    if sess.subtype == str "group" then
      let evs1 := evs0 ++ ["before-attach-channel", "attach-channel"]
      if env.attachChannelHook then ⟨parsed, evs1, PExit.aborted⟩
      else if (env.channelFlag &&& Channel.Flag.ignore) != 0 then ⟨parsed, evs1, PExit.aborted⟩
      else if env.channelAssignee != sess.selfId && !atSelf then ⟨parsed, evs1, PExit.aborted⟩
      else attachUserPhase env evs1 parsed
    else attachUserPhase env evs0 parsed
  else ⟨parsed, evs0 ++ ["attach"], PExit.calledNext⟩

/-! ## Auxiliary predicates and concrete fixtures used by the theorems -/

/-- Every referrer recorded anywhere in the cache is `r1`. -/
def refsOnly (r1 : String) (c : SharedCache Nat) : Prop :=
  ∀ p ∈ c.keyMap, ∀ r ∈ p.2.refs, r = r1

/-- Number of occurrences of an event in a trace. -/
def countEv (e : Ev) (l : List Ev) : Nat :=
  (l.filter (fun x => x = e)).length

/-- A dispatch state with nothing registered and empty caches. -/
def emptyDState : DState :=
  ⟨[], SharedCache.empty, SharedCache.empty, [], 0, []⟩

/-- C1 witness fixture: a non-self session. -/
def sessC1 : SessionInfo := ⟨"s1", "botA", "userB", false, false, false⟩

/-- C3 witness fixture: a registered session whose queue already holds
`Next.MAX_DEPTH` entries. -/
def dstC3 : DState :=
  ⟨["s"], SharedCache.empty, SharedCache.empty,
    List.replicate 64 (QEntry.mid 0 Handler.stop), 0, []⟩

/-- C4 fixture: a state whose session registry is empty (the owning session
completed teardown) but whose captured queue is still reachable. -/
def dstC4 : DState :=
  ⟨[], SharedCache.empty, SharedCache.empty, [QEntry.mid 1 Handler.pass], 0, []⟩

/-- C5 witness fixture: a group session. -/
def sessC5 : PSession :=
  ⟨str "hi", [MsgElement.textEl (str "hi")], str "self", str "group"⟩

/-- C5 witness fixture: database on, channel *ignore* flag set. -/
def envC5 : DbEnv := ⟨true, 1, str "self", false, 0, false⟩

/-- A configuration with no nicknames and the default prefix value. -/
def cfgC5 : IConfig := ⟨[], none⟩

/-- C6 fixtures: nickname "Bot", default prefix. -/
def cfgC6 : IConfig := ⟨[str "Bot"], none⟩

/-- C6: the claim's own instance "Bot, hello", no mention elements. -/
def sessC6 : PSession :=
  ⟨str "Bot, hello", [MsgElement.textEl (str "Bot, hello")], str "self", str "private"⟩

/-- C6 counterexample input: the content is exactly nickname plus
separator, so the stripped remainder is empty. -/
def sessC6bad : PSession :=
  ⟨str "Bot,", [MsgElement.textEl (str "Bot,")], str "self", str "private"⟩

/-- An environment with no database configured. -/
def envNoDb : DbEnv := ⟨false, 0, str "self", false, 0, false⟩

/-- C7 fixtures: prefix list `["a", "b"]`. -/
def cfgC7 : IConfig := ⟨[], some (Sum.inr [str "a", str "b"])⟩

/-- C7 counterexample input: content "abx" matches prefix "a", and the
stripped remainder then matches prefix "b" as well. -/
def sessC7 : PSession :=
  ⟨str "abx", [MsgElement.textEl (str "abx")], str "self", str "private"⟩

/-- C8 counterexample fixture: handler 1 supplies a continuation to `next`
while handler 2 is still queued behind it. -/
def dstC8 : DState :=
  ⟨["s"], SharedCache.empty, SharedCache.empty,
    [QEntry.mid 1 (Handler.nextFn 9 Handler.stop), QEntry.mid 2 Handler.stop], 0, []⟩

/-- C9 witness fixture. -/
def sessC9 : SessionInfo := ⟨"s9", "botA", "userB", false, false, false⟩

/-- C10 witness fixture: a message the bot sent to itself. -/
def sessC10 : SessionInfo := ⟨"s10", "botA", "botA", true, true, true⟩

/-! ## Theorems: SharedCache (claim C2) -/

theorem delete_of_refsOnly {r1 : String} {c : SharedCache Nat}
    (hc : refsOnly r1 c) : (c.delete r1).keyMap = [] := by
  simp only [SharedCache.delete]
  rw [List.filterMap_eq_nil_iff]
  intro p hp
  simp only [delEntry]
  have hflt : p.2.refs.filter (fun x => x ≠ r1) = [] := by
    rw [List.filter_eq_nil_iff]
    intro x hx
    simp [hc p hp x hx]
  rw [hflt]
  rfl

theorem find?_updateKey {α : Type} {l : List (String × SCEntry α)} {k : String}
    {e : SCEntry α} {p : String × SCEntry α}
    (h : l.find? (fun q => q.1 = k) = some p) :
    (updateKey k e l).find? (fun q => q.1 = k) = some (k, e) := by
  induction l with
  | nil => simp at h
  | cons q0 rest ih =>
    by_cases hk : q0.1 = k
    · simp only [updateKey, List.map_cons, if_pos hk]
      rw [List.find?_cons_of_pos _ (by simp)]
    · rw [List.find?_cons_of_neg _ (by simp [hk])] at h
      simp only [updateKey, List.map_cons, if_neg hk]
      rw [List.find?_cons_of_neg _ (by simp [hk])]
      exact ih h

theorem find?_append_of_none {α : Type} {pred : α → Bool} {l1 l2 : List α}
    (h : l1.find? pred = none) : (l1 ++ l2).find? pred = l2.find? pred := by
  induction l1 with
  | nil => simp
  | cons a rest ih =>
    rw [List.find?_eq_none] at h
    have ha : ¬ pred a = true := h a (by simp)
    rw [List.cons_append, List.find?_cons_of_neg _ ha]
    exact ih (by rw [List.find?_eq_none]; intro x hx; exact h x (by simp [hx]))

theorem delete_find {l : List (String × SCEntry Nat)} {k r1 r2 : String}
    {p : String × SCEntry Nat}
    (hfind : l.find? (fun q => q.1 = k) = some p)
    (hr2 : r2 ∈ p.2.refs) (hne : r2 ≠ r1) :
    (l.filterMap (delEntry r1)).find? (fun q => q.1 = k)
      = some (p.1, { p.2 with refs := p.2.refs.filter (fun x => x ≠ r1) }) := by
  induction l with
  | nil => simp at hfind
  | cons q0 rest ih =>
    by_cases hk : q0.1 = k
    · rw [List.find?_cons_of_pos _ (by simp [hk])] at hfind
      injection hfind with hfind
      subst hfind
      have hmem : r2 ∈ q0.2.refs.filter (fun x => x ≠ r1) := by
        rw [List.mem_filter]
        exact ⟨hr2, by simp [hne]⟩
      have hne2 : (q0.2.refs.filter (fun x => x ≠ r1)).isEmpty = false := by
        cases hflt : q0.2.refs.filter (fun x => x ≠ r1) with
        | nil => rw [hflt] at hmem; simp at hmem
        | cons a as => simp
      have hdel : delEntry r1 q0 = some (q0.1, { q0.2 with refs := q0.2.refs.filter (fun x => x ≠ r1) }) := by
        simp only [delEntry, hne2]
        rfl
      rw [List.filterMap_cons, hdel]
      rw [List.find?_cons_of_pos _ (by simp [hk])]
    · rw [List.find?_cons_of_neg _ (by simp [hk])] at hfind
      rw [List.filterMap_cons]
      cases hdel : delEntry r1 q0 with
      | none => exact ih hfind
      | some q1 =>
        have hq1 : q1.1 = q0.1 := by
          simp only [delEntry] at hdel
          split at hdel
          · simp at hdel
          · injection hdel with hdel
            subst hdel
            rfl
        rw [List.find?_cons_of_neg _ (by simp [hq1, hk])]
        exact ih hfind

theorem self_mem_addRef (r : String) (refs : List String) : r ∈ addRef r refs := by
  unfold addRef
  split
  · assumption
  · simp

theorem mem_addRef {r x : String} {refs : List String} (h : x ∈ addRef r refs) :
    x ∈ refs ∨ x = r := by
  unfold addRef at h
  split at h
  · exact Or.inl h
  · rcases List.mem_append.1 h with h1 | h1
    · exact Or.inl h1
    · simp at h1
      exact Or.inr h1

theorem refsOnly_applyOp {r1 : String} {c : SharedCache Nat} {op : COp}
    (hc : refsOnly r1 c) (hop : op.refOf = r1) : refsOnly r1 (applyOp c op) := by
  cases op with
  | getOp r k =>
    simp only [COp.refOf] at hop
    subst hop
    simp only [applyOp, SharedCache.get]
    split
    · exact hc
    · rename_i p hfind
      intro q hq x hx
      rcases List.mem_map.1 hq with ⟨q0, hq0, hq0e⟩
      by_cases hk : q0.1 = k
      · rw [if_pos hk] at hq0e
        subst hq0e
        simp only at hx
        rcases mem_addRef hx with h1 | h1
        · exact hc p (List.mem_of_find?_eq_some hfind) x h1
        · exact h1
      · rw [if_neg hk] at hq0e
        subst hq0e
        exact hc q0 hq0 x hx
  | setOp r k v =>
    simp only [COp.refOf] at hop
    subst hop
    simp only [applyOp, SharedCache.set]
    split
    · rename_i p hfind
      intro q hq x hx
      rcases List.mem_map.1 hq with ⟨q0, hq0, hq0e⟩
      by_cases hk : q0.1 = k
      · rw [if_pos hk] at hq0e
        subst hq0e
        simp only at hx
        rcases mem_addRef hx with h1 | h1
        · exact hc p (List.mem_of_find?_eq_some hfind) x h1
        · exact h1
      · rw [if_neg hk] at hq0e
        subst hq0e
        exact hc q0 hq0 x hx
    · intro q hq x hx
      rcases List.mem_append.1 hq with h1 | h1
      · exact hc q h1 x hx
      · simp at h1
        subst h1
        simp only [addRef, List.not_mem_nil, if_neg, List.nil_append] at hx
        simp at hx
        exact hx

theorem refsOnly_applyOps {r1 : String} :
    ∀ (ops : List COp) (c : SharedCache Nat), refsOnly r1 c →
      (∀ op ∈ ops, op.refOf = r1) → refsOnly r1 (applyOps ops c) := by
  intro ops
  induction ops with
  | nil => intro c hc _; exact hc
  | cons op rest ih =>
    intro c hc hops
    simp only [applyOps, List.foldl_cons]
    exact ih (applyOp c op) (refsOnly_applyOp hc (hops op (by simp)))
      (fun o ho => hops o (by simp [ho]))

/-- C2.  RefcountedCache eviction: (1) after any sequence of
`get`/`set` operations all performed under referrer `r1` (so every key was
touched only by `r1`), `deleteReferrer(r1)` leaves every key absent; (2) an
entry among whose referrers is a distinct `r2` (whose delete has not run)
survives `deleteReferrer(r1)` with its value, keeping `r2`; (3) a `set`
under `r` leaves `r` registered on the key's entry — so a key touched by a
second referrer falls under (2); (4) so does a `get` under `r` on a present
key. -/
theorem C2_refcounted_cache_delete :
    (∀ (ops : List COp) (r1 : String), (∀ op ∈ ops, op.refOf = r1) →
      ∀ k, ((applyOps ops SharedCache.empty).delete r1).lookup k = none)
    ∧ (∀ (c : SharedCache Nat) (k r1 r2 : String) (e : SCEntry Nat),
        r2 ≠ r1 → c.lookup k = some e → r2 ∈ e.refs →
        ∃ e2, (c.delete r1).lookup k = some e2 ∧ e2.value = e.value ∧ r2 ∈ e2.refs)
    ∧ (∀ (c : SharedCache Nat) (r k : String) (v : Nat),
        ∃ e2, (c.set r k v).lookup k = some e2 ∧ r ∈ e2.refs ∧ e2.value = v)
    ∧ (∀ (c : SharedCache Nat) (r k : String) (e : SCEntry Nat),
        c.lookup k = some e →
        ∃ e2, ((c.get r k).2).lookup k = some e2 ∧ r ∈ e2.refs) := by
  refine ⟨?_, ?_, ?_, ?_⟩
  · intro ops r1 hops k
    have h1 : refsOnly r1 (applyOps ops SharedCache.empty) :=
      refsOnly_applyOps ops SharedCache.empty
        (by intro p hp; simp [SharedCache.empty] at hp) hops
    have h2 := delete_of_refsOnly h1
    simp [SharedCache.lookup, h2]
  · intro c k r1 r2 e hne hlook hr2
    simp only [SharedCache.lookup, Option.map_eq_some'] at hlook
    rcases hlook with ⟨p, hfind, hp⟩
    subst hp
    refine ⟨{ p.2 with refs := p.2.refs.filter (fun x => x ≠ r1) }, ?_, rfl, ?_⟩
    · simp only [SharedCache.lookup, SharedCache.delete]
      rw [delete_find hfind hr2 hne]
      rfl
    · rw [List.mem_filter]
      exact ⟨hr2, by simp [hne]⟩
  · intro c r k v
    simp only [SharedCache.set]
    cases hfind : c.keyMap.find? (fun q => q.1 = k) with
    | some p =>
      refine ⟨{ p.2 with value := v, refs := addRef r p.2.refs }, ?_, ?_, rfl⟩
      · simp only [SharedCache.lookup]
        rw [find?_updateKey hfind]
        rfl
      · exact self_mem_addRef r p.2.refs
    | none =>
      refine ⟨⟨v, k, addRef r []⟩, ?_, ?_, rfl⟩
      · simp only [SharedCache.lookup]
        rw [find?_append_of_none hfind]
        rw [List.find?_cons_of_pos _ (by simp)]
        rfl
      · exact self_mem_addRef r []
  · intro c r k e hlook
    simp only [SharedCache.lookup, Option.map_eq_some'] at hlook
    rcases hlook with ⟨p, hfind, hp⟩
    subst hp
    simp only [SharedCache.get, hfind]
    refine ⟨{ p.2 with refs := addRef r p.2.refs }, ?_, self_mem_addRef r p.2.refs⟩
    simp only [SharedCache.lookup]
    rw [find?_updateKey hfind]
    rfl

/-- Witness for C2: a concrete run.  Referrer "r1" sets keys "k" and "k2";
after `delete "r1"` both are absent.  Separately, a `get` by "r2" on "k"
makes the entry survive `delete "r1"` with value 5 and "r2" registered. -/
theorem C2_witness :
    ((∀ op ∈ [COp.setOp "r1" "k" 5, COp.setOp "r1" "k2" 7], COp.refOf op = "r1")
      ∧ ((applyOps [COp.setOp "r1" "k" 5, COp.setOp "r1" "k2" 7]
            SharedCache.empty).delete "r1").lookup "k" = none)
    ∧ ∃ e2, ((((SharedCache.empty.set "r1" "k" 5).get "r2" "k").2).delete "r1").lookup "k"
        = some e2 ∧ e2.value = 5 ∧ "r2" ∈ e2.refs := by
  constructor
  · constructor
    · decide
    · exact C2_refcounted_cache_delete.1 _ "r1" (by decide) "k"
  · exact C2_refcounted_cache_delete.2.1 _ "k" "r1" "r2" ⟨5, "k", ["r1", "r2"]⟩
      (by decide) (by decide) (by decide)

/-! ## Theorems: dispatch loop, attach pipeline and name matching (C1, C3-C10) -/

theorem catch_sessions (r : Except JsError (Option Frag)) (st : DState) :
    (catchErrors r st).2.sessions = st.sessions := by
  cases r with
  | ok v => rfl
  | error e => cases e <;> rfl

theorem catch_userCache (r : Except JsError (Option Frag)) (st : DState) :
    (catchErrors r st).2.userCache = st.userCache := by
  cases r with
  | ok v => rfl
  | error e => cases e <;> rfl

theorem catch_channelCache (r : Except JsError (Option Frag)) (st : DState) :
    (catchErrors r st).2.channelCache = st.channelCache := by
  cases r with
  | ok v => rfl
  | error e => cases e <;> rfl

theorem catch_events (r : Except JsError (Option Frag)) (st : DState) :
    (catchErrors r st).2.events = st.events
      ∨ ∃ m, (catchErrors r st).2.events = st.events ++ [Ev.loggedGeneric m] := by
  cases r with
  | ok v => exact Or.inl rfl
  | error e =>
    cases e with
    | sessionError p prm => exact Or.inl rfl
    | genericError m => exact Or.inr ⟨m, rfl⟩

theorem run_state_inv : ∀ (fuel : Nat) (sid : String) (job : Job) (st : DState),
    (run fuel sid job st).2.sessions = st.sessions
    ∧ (run fuel sid job st).2.userCache = st.userCache
    ∧ (run fuel sid job st).2.channelCache = st.channelCache := by
  intro fuel
  induction fuel with
  | zero => intro sid job st; exact ⟨rfl, rfl, rfl⟩
  | succ n ih =>
    intro sid job st
    cases job with
    | nextJ cb =>
      by_cases hs : sid ∈ st.sessions
      · simp only [run, hs, if_true]
        by_cases hp2 : (pushStep cb st.queue).2 = true
        · simp [hp2]
        · simp only [Bool.not_eq_true] at hp2
          simp only [hp2, Bool.false_eq_true, if_false]
          cases hq : (pushStep cb st.queue).1[st.index]? with
          | none => exact ⟨rfl, rfl, rfl⟩
          | some e =>
            simp only [catch_sessions, catch_userCache, catch_channelCache]
            have h2 := ih sid (Job.entryJ e)
              { st with queue := (pushStep cb st.queue).1, index := st.index + 1 }
            exact h2
      · simp [run, hs]
    | entryJ e =>
      cases e with
      | mid lab h =>
        exact ih sid (Job.handlerJ h) { st with events := st.events ++ [Ev.invoked lab] }
      | comp c =>
        cases c with
        | strCb s => exact ⟨rfl, rfl, rfl⟩
        | fnCb lab h =>
          exact ih sid (Job.handlerJ h) { st with events := st.events ++ [Ev.invoked lab] }
    | handlerJ h =>
      cases h with
      | pass => exact ih sid (Job.nextJ none) st
      | ret f => exact ⟨rfl, rfl, rfl⟩
      | stop => exact ⟨rfl, rfl, rfl⟩
      | throwE e => exact ⟨rfl, rfl, rfl⟩
      | nextStr s => exact ih sid (Job.nextJ (some (CBVal.strCb s))) st
      | nextFn lab h2 => exact ih sid (Job.nextJ (some (CBVal.fnCb lab h2))) st

theorem pushStep_crossing {cb : Option CBVal} {q : List QEntry}
    (h : (pushStep cb q).2 = true) : Next.MAX_DEPTH < (pushStep cb q).1.length := by
  cases cb with
  | none => simp [pushStep] at h
  | some c =>
    simp only [pushStep] at h ⊢
    exact of_decide_eq_true h

theorem run_events : ∀ (fuel : Nat) (sid : String) (job : Job) (st : DState),
    ∃ tail, (run fuel sid job st).2.events = st.events ++ tail
      ∧ ∀ e ∈ tail, dispatchEv e = true := by
  intro fuel
  induction fuel with
  | zero => intro sid job st; exact ⟨[], by simp [run], by simp⟩
  | succ n ih =>
    intro sid job st
    cases job with
    | nextJ cb =>
      by_cases hs : sid ∈ st.sessions
      · simp only [run, hs, if_true]
        by_cases hp2 : (pushStep cb st.queue).2 = true
        · simp only [hp2, if_true]
          exact ⟨[Ev.loggedStack (pushStep cb st.queue).1.length], rfl, by simp [dispatchEv]⟩
        · simp only [Bool.not_eq_true] at hp2
          simp only [hp2, Bool.false_eq_true, if_false]
          cases hq : (pushStep cb st.queue).1[st.index]? with
          | none => exact ⟨[], by simp, by simp⟩
          | some e =>
            obtain ⟨tail, ht, hd⟩ := ih sid (Job.entryJ e)
              { st with queue := (pushStep cb st.queue).1, index := st.index + 1 }
            rcases catch_events
                (run n sid (Job.entryJ e)
                  { st with queue := (pushStep cb st.queue).1, index := st.index + 1 }).1
                (run n sid (Job.entryJ e)
                  { st with queue := (pushStep cb st.queue).1, index := st.index + 1 }).2
              with hc | ⟨m, hc⟩
            · exact ⟨tail, by simp only [hc]; exact ht, hd⟩
            · refine ⟨tail ++ [Ev.loggedGeneric m], ?_, ?_⟩
              · simp only [hc, ht, List.append_assoc]
              · intro e2 he2
                rcases List.mem_append.1 he2 with h1 | h1
                · exact hd e2 h1
                · simp at h1
                  subst h1
                  simp [dispatchEv]
      · simp only [run, hs, if_false]
        exact ⟨[Ev.loggedIsolated], rfl, by simp [dispatchEv]⟩
    | entryJ e =>
      cases e with
      | mid lab h =>
        obtain ⟨tail, ht, hd⟩ := ih sid (Job.handlerJ h)
          { st with events := st.events ++ [Ev.invoked lab] }
        refine ⟨[Ev.invoked lab] ++ tail, ?_, ?_⟩
        · simp only [run]
          rw [ht]
          simp [List.append_assoc]
        · intro e2 he2
          rcases List.mem_append.1 he2 with h1 | h1
          · simp at h1
            subst h1
            simp [dispatchEv]
          · exact hd e2 h1
      | comp c =>
        cases c with
        | strCb s =>
          exact ⟨[Ev.composedStr s], rfl, by simp [dispatchEv]⟩
        | fnCb lab h =>
          obtain ⟨tail, ht, hd⟩ := ih sid (Job.handlerJ h)
            { st with events := st.events ++ [Ev.invoked lab] }
          refine ⟨[Ev.invoked lab] ++ tail, ?_, ?_⟩
          · simp only [run]
            rw [ht]
            simp [List.append_assoc]
          · intro e2 he2
            rcases List.mem_append.1 he2 with h1 | h1
            · simp at h1
              subst h1
              simp [dispatchEv]
            · exact hd e2 h1
    | handlerJ h =>
      cases h with
      | pass => exact ih sid (Job.nextJ none) st
      | ret f => exact ⟨[], by simp [run], by simp⟩
      | stop => exact ⟨[], by simp [run], by simp⟩
      | throwE e => exact ⟨[], by simp [run], by simp⟩
      | nextStr s => exact ih sid (Job.nextJ (some (CBVal.strCb s))) st
      | nextFn lab h2 => exact ih sid (Job.nextJ (some (CBVal.fnCb lab h2))) st

theorem run_loggedStack : ∀ (fuel : Nat) (sid : String) (job : Job) (st : DState) (m : Nat),
    Ev.loggedStack m ∈ (run fuel sid job st).2.events →
    Ev.loggedStack m ∈ st.events ∨ Next.MAX_DEPTH < m := by
  intro fuel
  induction fuel with
  | zero => intro sid job st m hm; exact Or.inl hm
  | succ n ih =>
    intro sid job st m hm
    cases job with
    | nextJ cb =>
      by_cases hs : sid ∈ st.sessions
      · simp only [run, hs, if_true] at hm
        by_cases hp2 : (pushStep cb st.queue).2 = true
        · simp only [hp2, if_true] at hm
          rcases List.mem_append.1 hm with h1 | h1
          · exact Or.inl h1
          · simp at h1
            rw [h1]
            exact Or.inr (pushStep_crossing hp2)
        · simp only [Bool.not_eq_true] at hp2
          simp only [hp2, Bool.false_eq_true, if_false] at hm
          cases hq : (pushStep cb st.queue).1[st.index]? with
          | none =>
            rw [hq] at hm
            exact Or.inl hm
          | some e =>
            rw [hq] at hm
            simp only at hm
            rcases catch_events
                (run n sid (Job.entryJ e)
                  { st with queue := (pushStep cb st.queue).1, index := st.index + 1 }).1
                (run n sid (Job.entryJ e)
                  { st with queue := (pushStep cb st.queue).1, index := st.index + 1 }).2
              with hc | ⟨m2, hc⟩
            · rw [hc] at hm
              rcases ih sid (Job.entryJ e)
                  { st with queue := (pushStep cb st.queue).1, index := st.index + 1 } m hm
                with h1 | h1
              · exact Or.inl h1
              · exact Or.inr h1
            · rw [hc] at hm
              rcases List.mem_append.1 hm with h1 | h1
              · rcases ih sid (Job.entryJ e)
                    { st with queue := (pushStep cb st.queue).1, index := st.index + 1 } m h1
                  with h2 | h2
                · exact Or.inl h2
                · exact Or.inr h2
              · simp at h1
      · simp only [run, hs, if_false] at hm
        rcases List.mem_append.1 hm with h1 | h1
        · exact Or.inl h1
        · simp at h1
    | entryJ e =>
      cases e with
      | mid lab h =>
        simp only [run] at hm
        rcases ih sid (Job.handlerJ h) { st with events := st.events ++ [Ev.invoked lab] } m hm
          with h1 | h1
        · rcases List.mem_append.1 h1 with h2 | h2
          · exact Or.inl h2
          · simp at h2
        · exact Or.inr h1
      | comp c =>
        cases c with
        | strCb s =>
          simp only [run] at hm
          rcases List.mem_append.1 hm with h1 | h1
          · exact Or.inl h1
          · simp at h1
        | fnCb lab h =>
          simp only [run] at hm
          rcases ih sid (Job.handlerJ h) { st with events := st.events ++ [Ev.invoked lab] } m hm
            with h1 | h1
          · rcases List.mem_append.1 h1 with h2 | h2
            · exact Or.inl h2
            · simp at h2
          · exact Or.inr h1
    | handlerJ h =>
      cases h with
      | pass => exact ih sid (Job.nextJ none) st m hm
      | ret f => exact Or.inl hm
      | stop => exact Or.inl hm
      | throwE e => exact Or.inl hm
      | nextStr s => exact ih sid (Job.nextJ (some (CBVal.strCb s))) st m hm
      | nextFn lab h2 => exact ih sid (Job.nextJ (some (CBVal.fnCb lab h2))) st m hm

theorem run_entry_mid (fuel : Nat) (sid : String) (st : DState) (lab : Nat) (h : Handler) :
    run (fuel + 1) sid (Job.entryJ (QEntry.mid lab h)) st
      = run fuel sid (Job.handlerJ h) { st with events := st.events ++ [Ev.invoked lab] } := rfl

theorem run_handler_pass (fuel : Nat) (sid : String) (st : DState) :
    run (fuel + 1) sid (Job.handlerJ Handler.pass) st = run fuel sid (Job.nextJ none) st := rfl

theorem run_handler_stop (fuel : Nat) (sid : String) (st : DState) :
    run (fuel + 1) sid (Job.handlerJ Handler.stop) st = (Except.ok none, st) := rfl

theorem run_handler_throw (fuel : Nat) (sid : String) (st : DState) (e : JsError) :
    run (fuel + 1) sid (Job.handlerJ (Handler.throwE e)) st = (Except.error e, st) := rfl

theorem run_next_invoke (fuel : Nat) (sid : String) (st : DState) (e : QEntry)
    (hs : sid ∈ st.sessions) (hq : st.queue[st.index]? = some e) :
    run (fuel + 1) sid (Job.nextJ none) st
      = (Except.ok (catchErrors
            (run fuel sid (Job.entryJ e) { st with index := st.index + 1 }).1
            (run fuel sid (Job.entryJ e) { st with index := st.index + 1 }).2).1,
         (catchErrors
            (run fuel sid (Job.entryJ e) { st with index := st.index + 1 }).1
            (run fuel sid (Job.entryJ e) { st with index := st.index + 1 }).2).2) := by
  simp only [run, hs, if_true, pushStep]
  rw [hq]
  simp

theorem passChain : ∀ (k fuel : Nat) (sid : String) (st : DState) (lab : Nat)
    (p : List String) (prm : List (String × String)),
    sid ∈ st.sessions →
    (∀ j, j < k → st.queue[st.index + j]? = some (QEntry.mid 0 Handler.pass)) →
    st.queue[st.index + k]? = some (QEntry.mid lab (Handler.throwE (JsError.sessionError p prm))) →
    run (fuel + 3 * k + 3) sid (Job.nextJ none) st
      = (Except.ok (some (Frag.localized p prm)),
         { st with index := st.index + k + 1,
                   events := st.events ++ (List.replicate k (Ev.invoked 0) ++ [Ev.invoked lab]) }) := by
  intro k
  induction k with
  | zero =>
    intro fuel sid st lab p prm hs _hpass hthrow
    rw [show fuel + 3 * 0 + 3 = (fuel + 2) + 1 from by omega]
    rw [run_next_invoke (fuel + 2) sid st _ hs (by simpa using hthrow)]
    rw [show fuel + 2 = (fuel + 1) + 1 from rfl]
    rw [run_entry_mid]
    rw [run_handler_throw]
    simp [catchErrors]
  | succ k ihk =>
    intro fuel sid st lab p prm hs hpass hthrow
    rw [show fuel + 3 * (k + 1) + 3 = (fuel + 3 * k + 3 + 2) + 1 from by omega]
    rw [run_next_invoke (fuel + 3 * k + 3 + 2) sid st (QEntry.mid 0 Handler.pass) hs
      (by simpa using hpass 0 (Nat.succ_pos k))]
    rw [show fuel + 3 * k + 3 + 2 = (fuel + 3 * k + 3 + 1) + 1 from rfl]
    rw [run_entry_mid]
    rw [show fuel + 3 * k + 3 + 1 = (fuel + 3 * k + 3) + 1 from rfl]
    rw [run_handler_pass]
    rw [ihk fuel sid
      { st with index := st.index + 1, events := st.events ++ [Ev.invoked 0] } lab p prm hs
      (by
        intro j hj
        have h2 := hpass (j + 1) (by omega)
        simpa [show st.index + 1 + j = st.index + (j + 1) from by omega] using h2)
      (by
        have h2 := hthrow
        simpa [show st.index + 1 + k = st.index + (k + 1) from by omega] using h2)]
    simp only [catchErrors]
    simp [Prod.mk.injEq, DState.mk.injEq, List.replicate_succ, List.append_assoc]
    omega

theorem runNext_snd (fuel : Nat) (sid : String) (cb : Option CBVal) (st : DState) :
    (runNext fuel sid cb st).2 = (run fuel sid (Job.nextJ cb) st).2 := by
  unfold runNext
  rcases hr : run fuel sid (Job.nextJ cb) st with ⟨res, st2⟩
  cases res <;> simp

theorem runNext_of_ok {fuel : Nat} {sid : String} {cb : Option CBVal} {st : DState}
    {r : Option Frag} {st2 : DState}
    (h : run fuel sid (Job.nextJ cb) st = (Except.ok r, st2)) :
    runNext fuel sid cb st = (r, st2) := by
  unfold runNext
  rw [h]

theorem sendStep_sessions (r : Option Frag) (st : DState) :
    (sendStep r st).sessions = st.sessions := by
  cases r with
  | none => rfl
  | some f => simp only [sendStep]; split <;> rfl

theorem sendStep_userCache (r : Option Frag) (st : DState) :
    (sendStep r st).userCache = st.userCache := by
  cases r with
  | none => rfl
  | some f => simp only [sendStep]; split <;> rfl

theorem sendStep_channelCache (r : Option Frag) (st : DState) :
    (sendStep r st).channelCache = st.channelCache := by
  cases r with
  | none => rfl
  | some f => simp only [sendStep]; split <;> rfl

theorem sendStep_events (r : Option Frag) (st : DState) :
    (sendStep r st).events = st.events
      ∨ ∃ f, (sendStep r st).events = st.events ++ [Ev.sent f] := by
  cases r with
  | none => exact Or.inl rfl
  | some f =>
    simp only [sendStep]
    split
    · exact Or.inr ⟨f, rfl⟩
    · exact Or.inl rfl

theorem cache_delete_no_ref {α : Type} (c : SharedCache α) (r : String) :
    ∀ p ∈ (c.delete r).keyMap, r ∉ p.2.refs := by
  intro p hp
  simp only [SharedCache.delete] at hp
  rcases List.mem_filterMap.1 hp with ⟨q, _hq, hdel⟩
  simp only [delEntry] at hdel
  split at hdel
  · simp at hdel
  · injection hdel with hdel
    subst hdel
    intro hmem
    simp only at hmem
    rcases List.mem_filter.1 hmem with ⟨_, hne⟩
    simp at hne

theorem countEv_append (e : Ev) (l1 l2 : List Ev) :
    countEv e (l1 ++ l2) = countEv e l1 + countEv e l2 := by
  simp [countEv, List.filter_append]

theorem countEv_zero_of_dispatch {e : Ev} {l : List Ev} (he : dispatchEv e = false)
    (h : ∀ x ∈ l, dispatchEv x = true) : countEv e l = 0 := by
  simp only [countEv, List.length_eq_zero]
  rw [List.filter_eq_nil_iff]
  intro x hx
  simp only [decide_eq_true_eq]
  intro hxe
  subst hxe
  have h2 := h x hx
  rw [he] at h2
  exact absurd h2 (by simp)

theorem countEv_zero_of_ne {e : Ev} {l : List Ev} (h : ∀ x ∈ l, x ≠ e) : countEv e l = 0 := by
  simp only [countEv, List.length_eq_zero]
  rw [List.filter_eq_nil_iff]
  intro x hx
  simp only [decide_eq_true_eq]
  exact h x hx

theorem flushEvents_flushed (sess : SessionInfo) :
    ∀ x ∈ flushEvents sess, ∃ k, x = Ev.flushed k := by
  intro x hx
  simp only [flushEvents] at hx
  rcases List.mem_append.1 hx with h1 | h1
  · rcases List.mem_append.1 h1 with h2 | h2
    · split at h2
      · simp at h2
        exact ⟨"user", h2⟩
      · simp at h2
    · split at h2
      · simp at h2
        exact ⟨"channel", h2⟩
      · simp at h2
  · split at h1
    · simp at h1
      exact ⟨"guild", h1⟩
    · simp at h1

/-- C10.  A message whose self identifier equals its user identifier (a
message the bot itself sent) makes `_handleMessage` return immediately: the
resulting state is the input state unchanged — no session registration, no
handler invocation, no reply, no teardown step and no event of any kind. -/
theorem C10_self_message_ignored (sess : SessionInfo) (hooks : List (Bool × Nat × Handler))
    (fuel : Nat) (st0 : DState) (h : sess.selfId = sess.userId) :
    handleMessage sess hooks fuel st0 = st0 := by
  simp [handleMessage, h]

/-- C1.  For every dispatched session (any filtered hook list — including
hooks that abort, throw, or push continuations — any fuel and any starting
state), the finalizer of `_handleMessage` runs exactly once: afterwards the
session id is absent from the session registry, no entry of either cache
holds the session's referrer, and the trace gained exactly one
deregistration event and exactly one referrer release for the user cache
and for the channel cache each. -/
theorem C1_teardown_runs_exactly_once (sess : SessionInfo)
    (hooks : List (Bool × Nat × Handler)) (fuel : Nat) (st0 : DState)
    (hself : sess.selfId ≠ sess.userId) :
    sess.id ∉ (handleMessage sess hooks fuel st0).sessions
    ∧ (∀ p ∈ (handleMessage sess hooks fuel st0).userCache.keyMap, sess.id ∉ p.2.refs)
    ∧ (∀ p ∈ (handleMessage sess hooks fuel st0).channelCache.keyMap, sess.id ∉ p.2.refs)
    ∧ countEv (Ev.deregistered sess.id) (handleMessage sess hooks fuel st0).events
        = countEv (Ev.deregistered sess.id) st0.events + 1
    ∧ countEv (Ev.releasedUser sess.id) (handleMessage sess hooks fuel st0).events
        = countEv (Ev.releasedUser sess.id) st0.events + 1
    ∧ countEv (Ev.releasedChannel sess.id) (handleMessage sess hooks fuel st0).events
        = countEv (Ev.releasedChannel sess.id) st0.events + 1 := by
  have hBase : ∀ e : Ev, dispatchEv e = false → (∀ f, e ≠ Ev.sent f) →
      countEv e (sendStep
        (runNext fuel sess.id none
          { st0 with sessions := insertId sess.id st0.sessions,
                     queue := filteredQueue hooks, index := 0 }).1
        (runNext fuel sess.id none
          { st0 with sessions := insertId sess.id st0.sessions,
                     queue := filteredQueue hooks, index := 0 }).2).events
        = countEv e st0.events := by
    intro e hde hns
    have hrn := runNext_snd fuel sess.id none
      { st0 with sessions := insertId sess.id st0.sessions,
                 queue := filteredQueue hooks, index := 0 }
    obtain ⟨tail, ht, hd⟩ := run_events fuel sess.id (Job.nextJ none)
      { st0 with sessions := insertId sess.id st0.sessions,
                 queue := filteredQueue hooks, index := 0 }
    have hev : (runNext fuel sess.id none
        { st0 with sessions := insertId sess.id st0.sessions,
                   queue := filteredQueue hooks, index := 0 }).2.events
        = st0.events ++ tail := by
      rw [hrn, ht]
    rcases sendStep_events
        (runNext fuel sess.id none
          { st0 with sessions := insertId sess.id st0.sessions,
                     queue := filteredQueue hooks, index := 0 }).1
        (runNext fuel sess.id none
          { st0 with sessions := insertId sess.id st0.sessions,
                     queue := filteredQueue hooks, index := 0 }).2 with hse | ⟨f, hse⟩
    · rw [hse, hev, countEv_append, countEv_zero_of_dispatch hde hd]
      simp
    · rw [hse, countEv_append, hev, countEv_append, countEv_zero_of_dispatch hde hd]
      have h0 : countEv e [Ev.sent f] = 0 :=
        countEv_zero_of_ne (by intro x hx; simp at hx; subst hx; exact fun he => hns f he.symm)
      rw [h0]
      simp
  simp only [handleMessage, if_neg hself]
  refine ⟨?_, ?_, ?_, ?_, ?_, ?_⟩
  · simp only [teardown]
    intro hmem
    rcases List.mem_filter.1 hmem with ⟨_, hne⟩
    simp at hne
  · simp only [teardown]
    exact cache_delete_no_ref _ sess.id
  · simp only [teardown]
    exact cache_delete_no_ref _ sess.id
  · simp only [teardown, countEv_append]
    rw [hBase (Ev.deregistered sess.id) rfl (by intro f h; cases h)]
    have h4 : countEv (Ev.deregistered sess.id)
        [Ev.deregistered sess.id, Ev.emitted "middleware",
         Ev.releasedUser sess.id, Ev.releasedChannel sess.id] = 1 := by
      simp [countEv]
    have hfl : countEv (Ev.deregistered sess.id) (flushEvents sess) = 0 :=
      countEv_zero_of_ne (by
        intro x hx
        rcases flushEvents_flushed sess x hx with ⟨k, hk⟩
        subst hk
        simp)
    rw [h4, hfl]
  · simp only [teardown, countEv_append]
    rw [hBase (Ev.releasedUser sess.id) rfl (by intro f h; cases h)]
    have h4 : countEv (Ev.releasedUser sess.id)
        [Ev.deregistered sess.id, Ev.emitted "middleware",
         Ev.releasedUser sess.id, Ev.releasedChannel sess.id] = 1 := by
      simp [countEv]
    have hfl : countEv (Ev.releasedUser sess.id) (flushEvents sess) = 0 :=
      countEv_zero_of_ne (by
        intro x hx
        rcases flushEvents_flushed sess x hx with ⟨k, hk⟩
        subst hk
        simp)
    rw [h4, hfl]
  · simp only [teardown, countEv_append]
    rw [hBase (Ev.releasedChannel sess.id) rfl (by intro f h; cases h)]
    have h4 : countEv (Ev.releasedChannel sess.id)
        [Ev.deregistered sess.id, Ev.emitted "middleware",
         Ev.releasedUser sess.id, Ev.releasedChannel sess.id] = 1 := by
      simp [countEv]
    have hfl : countEv (Ev.releasedChannel sess.id) (flushEvents sess) = 0 :=
      countEv_zero_of_ne (by
        intro x hx
        rcases flushEvents_flushed sess x hx with ⟨k, hk⟩
        subst hk
        simp)
    rw [h4, hfl]

/-- C3.  Middleware depth bound: (1) `next` without a continuation value
never performs the push and never raises the stack-exceeded failure at its
push site; (2) `next` with a continuation value pushes exactly one entry
and raises exactly when the length after the push exceeds
`Next.MAX_DEPTH = 64`; (3) on a registered session whose queue already
holds 64 entries, the push happens and the stack-exceeded failure is
raised (and logged by `next`'s own catch) with no entry invoked; (4) every
stack-exceeded event ever logged during a dispatch records a queue length
strictly above 64 — the failure never fires on an earlier push. -/
theorem C3_stack_depth :
    (∀ q : List QEntry, pushStep none q = (q, false))
    ∧ (∀ (c : CBVal) (q : List QEntry),
        pushStep (some c) q = (q ++ [QEntry.comp c], decide (Next.MAX_DEPTH < q.length + 1)))
    ∧ (∀ (fuel : Nat) (sid : String) (c : CBVal) (st : DState),
        sid ∈ st.sessions → Next.MAX_DEPTH ≤ st.queue.length →
        runNext (fuel + 1) sid (some c) st
          = (none, { st with queue := st.queue ++ [QEntry.comp c],
                             events := st.events ++ [Ev.loggedStack (st.queue.length + 1)] }))
    ∧ (∀ (fuel : Nat) (sid : String) (job : Job) (st : DState) (m : Nat),
        Ev.loggedStack m ∈ (run fuel sid job st).2.events →
        Ev.loggedStack m ∈ st.events ∨ Next.MAX_DEPTH < m) := by
  refine ⟨fun q => rfl, ?_, ?_, run_loggedStack⟩
  · intro c q
    simp [pushStep]
  · intro fuel sid c st hs hlen
    have hcross : (pushStep (some c) st.queue).2 = true := by
      simp only [pushStep, List.length_append, List.length_cons, List.length_nil]
      simp only [decide_eq_true_eq]
      simp only [Next.MAX_DEPTH] at hlen ⊢
      omega
    apply runNext_of_ok
    simp only [run, hs, if_true, hcross, if_true]
    have h1 : (pushStep (some c) st.queue).1 = st.queue ++ [QEntry.comp c] := rfl
    rw [h1]
    simp [List.length_append]

/-- Witness for C3: a registered session with a 64-entry queue; one more
push logs the stack-exceeded failure at length 65. -/
theorem C3_witness :
    ("s" ∈ dstC3.sessions ∧ Next.MAX_DEPTH ≤ dstC3.queue.length)
    ∧ runNext 1 "s" (some (CBVal.strCb "x")) dstC3
      = (none, { dstC3 with queue := dstC3.queue ++ [QEntry.comp (CBVal.strCb "x")],
                            events := dstC3.events ++ [Ev.loggedStack (dstC3.queue.length + 1)] }) := by
  refine ⟨⟨by decide, by decide⟩, ?_⟩
  exact C3_stack_depth.2.2.1 0 "s" (CBVal.strCb "x") dstC3 (by decide) (by decide)

/-- C4 counterexample.  The claim says an isolated `next` call "fails
fatally with the isolation error, which propagates out of next".  In the
code the throw sits inside `next`'s own `try`, so the catch block logs and
swallows it: on a state whose session registry is empty, the call resolves
normally (`Except.ok none` — not an error), the trace shows only the logged
isolation error, and no queued handler is invoked. -/
theorem C4_counterexample :
    dstC4.sessions = []
    ∧ run 5 "s0" (Job.nextJ none) dstC4
      = (Except.ok none, { dstC4 with events := [Ev.loggedIsolated] }) := ⟨rfl, rfl⟩

/-- C4 amended.  Invoking a captured `next` (with or without a
continuation value) when the owning session's id is no longer in the
session registry raises the isolation error, which `next`'s own catch logs
and swallows: the call resolves with no fragment, nothing is pushed, no
queued handler is invoked, and the state is unchanged except for the logged
isolation event. -/
theorem C4_isolated_next_amended (fuel : Nat) (sid : String) (cb : Option CBVal)
    (st : DState) (h : sid ∉ st.sessions) :
    runNext (fuel + 1) sid cb st
      = (none, { st with events := st.events ++ [Ev.loggedIsolated] }) := by
  apply runNext_of_ok
  simp [run, h]

/-- Witness for C4's amended theorem at the concrete post-teardown state. -/
theorem C4_witness :
    ("s0" ∉ dstC4.sessions)
    ∧ runNext 1 "s0" none dstC4
      = (none, { dstC4 with events := dstC4.events ++ [Ev.loggedIsolated] }) := by
  refine ⟨by decide, ?_⟩
  exact C4_isolated_next_amended 0 "s0" none dstC4 (by decide)

theorem run_entry_compFn (fuel : Nat) (sid : String) (st : DState) (lab : Nat) (h : Handler) :
    run (fuel + 1) sid (Job.entryJ (QEntry.comp (CBVal.fnCb lab h))) st
      = run fuel sid (Job.handlerJ h) { st with events := st.events ++ [Ev.invoked lab] } := rfl

theorem run_next_invoke_push (fuel : Nat) (sid : String) (st : DState) (c : CBVal) (e : QEntry)
    (hs : sid ∈ st.sessions) (hp2 : (pushStep (some c) st.queue).2 = false)
    (hq : (st.queue ++ [QEntry.comp c])[st.index]? = some e) :
    run (fuel + 1) sid (Job.nextJ (some c)) st
      = (Except.ok (catchErrors
            (run fuel sid (Job.entryJ e)
              { st with queue := st.queue ++ [QEntry.comp c], index := st.index + 1 }).1
            (run fuel sid (Job.entryJ e)
              { st with queue := st.queue ++ [QEntry.comp c], index := st.index + 1 }).2).1,
         (catchErrors
            (run fuel sid (Job.entryJ e)
              { st with queue := st.queue ++ [QEntry.comp c], index := st.index + 1 }).1
            (run fuel sid (Job.entryJ e)
              { st with queue := st.queue ++ [QEntry.comp c], index := st.index + 1 }).2).2) := by
  simp only [run, hs, if_true, hp2, Bool.false_eq_true, if_false]
  have h1 : (pushStep (some c) st.queue).1 = st.queue ++ [QEntry.comp c] := rfl
  rw [h1, hq]

/-- C8 counterexample.  The claim says a continuation supplied to `next`
is placed immediately after the calling handler's position and is the very
next entry the cursor reaches.  In the code `queue.push` appends at the
end: with handler 1 (which calls `next` with continuation 9) queued before
handler 2, the pushed entry lands at the back of the queue, the cursor
reaches handler 2 next, and entry 9 is never invoked in this run at all. -/
theorem C8_counterexample :
    (runNext 10 "s" none dstC8).2.events = [Ev.invoked 1, Ev.invoked 2]
    ∧ (runNext 10 "s" none dstC8).2.queue
      = [QEntry.mid 1 (Handler.nextFn 9 Handler.stop), QEntry.mid 2 Handler.stop,
         QEntry.comp (CBVal.fnCb 9 Handler.stop)]
    ∧ Ev.invoked 9 ∉ (runNext 10 "s" none dstC8).2.events := by
  refine ⟨by decide, by decide, by decide⟩

/-- C8 amended.  Handlers execute strictly in queue-cursor order, but a
continuation is appended at the END of the queue, not after the caller's
position: (1) the push step appends the synthetic entry at the back; (2)
when the cursor is not yet at the end, the entry invoked by a `next(cb)`
call is the one at the cursor, not the pushed continuation; (3) the pushed
continuation is invoked immediately only when the calling handler was the
last queued entry. -/
theorem C8_append_order_amended :
    (∀ (c : CBVal) (q : List QEntry), (pushStep (some c) q).1 = q ++ [QEntry.comp c])
    ∧ (∀ (fuel : Nat) (sid : String) (st : DState) (c : CBVal) (lab : Nat) (h : Handler),
        sid ∈ st.sessions → st.queue.length + 1 ≤ Next.MAX_DEPTH →
        st.queue[st.index]? = some (QEntry.mid lab h) →
        ∃ tail, (runNext (fuel + 2) sid (some c) st).2.events
          = st.events ++ Ev.invoked lab :: tail)
    ∧ (∀ (fuel : Nat) (sid : String) (st : DState) (lab : Nat) (h : Handler),
        sid ∈ st.sessions → st.queue.length + 1 ≤ Next.MAX_DEPTH →
        st.index = st.queue.length →
        ∃ tail, (runNext (fuel + 2) sid (some (CBVal.fnCb lab h)) st).2.events
          = st.events ++ Ev.invoked lab :: tail) := by
  refine ⟨fun c q => rfl, ?_, ?_⟩
  · intro fuel sid st c lab h hs hlen hq
    rw [runNext_snd]
    have hp2 : (pushStep (some c) st.queue).2 = false := by
      simp only [pushStep, List.length_append, List.length_cons, List.length_nil,
        decide_eq_false_iff_not]
      simp only [Next.MAX_DEPTH] at hlen ⊢
      omega
    have hidx : st.index < st.queue.length := by
      by_contra hge
      push_neg at hge
      rw [List.getElem?_eq_none hge] at hq
      cases hq
    have hq2 : (st.queue ++ [QEntry.comp c])[st.index]? = some (QEntry.mid lab h) := by
      rw [List.getElem?_append_left hidx]
      exact hq
    rw [show fuel + 2 = (fuel + 1) + 1 from rfl]
    rw [run_next_invoke_push (fuel + 1) sid st c _ hs hp2 hq2]
    rw [run_entry_mid]
    obtain ⟨tail, ht, hd⟩ := run_events fuel sid (Job.handlerJ h)
      { st with queue := st.queue ++ [QEntry.comp c], index := st.index + 1,
                events := st.events ++ [Ev.invoked lab] }
    rcases catch_events
        (run fuel sid (Job.handlerJ h)
          { st with queue := st.queue ++ [QEntry.comp c], index := st.index + 1,
                    events := st.events ++ [Ev.invoked lab] }).1
        (run fuel sid (Job.handlerJ h)
          { st with queue := st.queue ++ [QEntry.comp c], index := st.index + 1,
                    events := st.events ++ [Ev.invoked lab] }).2 with hc | ⟨m, hc⟩
    · refine ⟨tail, ?_⟩
      simp only [hc, ht]
      simp
    · refine ⟨tail ++ [Ev.loggedGeneric m], ?_⟩
      simp only [hc, ht]
      simp
  · intro fuel sid st lab h hs hlen hidx
    rw [runNext_snd]
    have hp2 : (pushStep (some (CBVal.fnCb lab h)) st.queue).2 = false := by
      simp only [pushStep, List.length_append, List.length_cons, List.length_nil,
        decide_eq_false_iff_not]
      simp only [Next.MAX_DEPTH] at hlen ⊢
      omega
    have hq2 : (st.queue ++ [QEntry.comp (CBVal.fnCb lab h)])[st.index]?
        = some (QEntry.comp (CBVal.fnCb lab h)) := by
      rw [hidx]
      exact List.getElem?_concat_length st.queue _
    rw [show fuel + 2 = (fuel + 1) + 1 from rfl]
    rw [run_next_invoke_push (fuel + 1) sid st _ _ hs hp2 hq2]
    rw [run_entry_compFn]
    obtain ⟨tail, ht, hd⟩ := run_events fuel sid (Job.handlerJ h)
      { st with queue := st.queue ++ [QEntry.comp (CBVal.fnCb lab h)], index := st.index + 1,
                events := st.events ++ [Ev.invoked lab] }
    rcases catch_events
        (run fuel sid (Job.handlerJ h)
          { st with queue := st.queue ++ [QEntry.comp (CBVal.fnCb lab h)], index := st.index + 1,
                    events := st.events ++ [Ev.invoked lab] }).1
        (run fuel sid (Job.handlerJ h)
          { st with queue := st.queue ++ [QEntry.comp (CBVal.fnCb lab h)], index := st.index + 1,
                    events := st.events ++ [Ev.invoked lab] }).2 with hc | ⟨m, hc⟩
    · refine ⟨tail, ?_⟩
      simp only [hc, ht]
      simp
    · refine ⟨tail ++ [Ev.loggedGeneric m], ?_⟩
      simp only [hc, ht]
      simp

/-- Witness for C8's amended theorem: handler 1 supplies a continuation
while handler 2 is still queued; the invocation of entry 1 leads the added
trace. -/
theorem C8_witness :
    ("s" ∈ dstC8.sessions ∧ dstC8.queue.length + 1 ≤ Next.MAX_DEPTH
      ∧ dstC8.queue[dstC8.index]? = some (QEntry.mid 1 (Handler.nextFn 9 Handler.stop)))
    ∧ ∃ tail, (runNext 2 "s" (some (CBVal.strCb "y")) dstC8).2.events
        = dstC8.events ++ Ev.invoked 1 :: tail := by
  refine ⟨⟨by decide, by decide, by decide⟩, ?_⟩
  exact C8_append_order_amended.2.1 0 "s" dstC8 (CBVal.strCb "y") 1
    (Handler.nextFn 9 Handler.stop) (by decide) (by decide) (by decide)

/-- C5.  Policy gating: (1) with a database configured, a session whose
attached channel record has the *ignore* flag bit set (group sessions), or
whose attached user record has the *ignore* flag bit set, makes `_process`
return without calling `next` — silently: no error and no reply fragment,
and the `attach` notification that precedes middleware is never emitted
(the user ignore check runs after channel attach, before middleware); (2)
in the dispatch loop, when the first queued handler (the bound `_process`)
returns without calling `next`, no other queued entry is invoked and no
reply bubbles up.  `Channel.Flag.ignore`/`User.Flag.ignore` are modelled
from the spec (database.ts is not part of the sources). -/
theorem C5_ignore_gating :
    (∀ (cfg : IConfig) (sess : PSession) (env : DbEnv),
      env.hasDatabase = true →
      ((sess.subtype = str "group" ∧ env.channelFlag &&& Channel.Flag.ignore ≠ 0)
        ∨ env.userFlag &&& User.Flag.ignore ≠ 0) →
      (process cfg sess env).exit = PExit.aborted
        ∧ "attach" ∉ (process cfg sess env).emitted)
    ∧ (∀ (fuel : Nat) (sid : String) (st : DState) (lab : Nat) (rest : List QEntry),
        sid ∈ st.sessions → st.index = 0 →
        st.queue = QEntry.mid lab Handler.stop :: rest →
        runNext (fuel + 3) sid none st
          = (none, { st with index := 1, events := st.events ++ [Ev.invoked lab] })) := by
  constructor
  · intro cfg sess env hdb hyp
    simp only [process, hdb, if_true]
    by_cases hsub : sess.subtype == str "group"
    · simp only [hsub, if_true]
      cases hch : env.attachChannelHook
      · simp only [Bool.false_eq_true, if_false]
        by_cases hci : (env.channelFlag &&& Channel.Flag.ignore) != 0
        · simp only [hci, if_true]
          exact ⟨by simp, by decide⟩
        · have huser : env.userFlag &&& User.Flag.ignore ≠ 0 := by
            rcases hyp with ⟨_, hcig⟩ | hu
            · exact absurd (bne_iff_ne.2 hcig) hci
            · exact hu
          simp only [Bool.not_eq_true] at hci
          simp only [hci, Bool.false_eq_true, if_false]
          by_cases hass : (env.channelAssignee != sess.selfId && !(parsePhase cfg sess).2) = true
          · simp only [hass, if_true]
            exact ⟨by simp, by decide⟩
          · simp only [Bool.not_eq_true] at hass
            simp only [hass, Bool.false_eq_true, if_false]
            simp only [attachUserPhase]
            cases huh : env.attachUserHook
            · simp only [Bool.false_eq_true, if_false]
              simp only [bne_iff_ne.2 huser, if_true]
              exact ⟨by simp, by decide⟩
            · simp only [if_true]
              exact ⟨by simp, by decide⟩
      · simp only [if_true]
        exact ⟨by simp, by decide⟩
    · have huser : env.userFlag &&& User.Flag.ignore ≠ 0 := by
        rcases hyp with ⟨hgr, _⟩ | hu
        · exact absurd (beq_iff_eq.2 hgr) hsub
        · exact hu
      simp only [Bool.not_eq_true] at hsub
      simp only [hsub, Bool.false_eq_true, if_false]
      simp only [attachUserPhase]
      cases huh : env.attachUserHook
      · simp only [Bool.false_eq_true, if_false]
        simp only [bne_iff_ne.2 huser, if_true]
        exact ⟨by simp, by decide⟩
      · simp only [if_true]
        exact ⟨by simp, by decide⟩
  · intro fuel sid st lab rest hs hidx hqueue
    apply runNext_of_ok
    rw [show fuel + 3 = (fuel + 2) + 1 from rfl]
    rw [run_next_invoke (fuel + 2) sid st (QEntry.mid lab Handler.stop) hs
      (by rw [hqueue, hidx]; simp)]
    rw [show fuel + 2 = (fuel + 1) + 1 from rfl]
    rw [run_entry_mid]
    rw [run_handler_stop]
    simp [catchErrors, hidx]

/-- Witness for C5: a group session whose channel record has the ignore
bit set aborts without emitting `attach`. -/
theorem C5_witness :
    (envC5.hasDatabase = true
      ∧ ((sessC5.subtype = str "group" ∧ envC5.channelFlag &&& Channel.Flag.ignore ≠ 0)
          ∨ envC5.userFlag &&& User.Flag.ignore ≠ 0))
    ∧ (process cfgC5 sessC5 envC5).exit = PExit.aborted
    ∧ "attach" ∉ (process cfgC5 sessC5 envC5).emitted := by
  refine ⟨⟨rfl, Or.inl ⟨by decide, by decide⟩⟩, ?_⟩
  exact C5_ignore_gating.1 cfgC5 sessC5 envC5 rfl (Or.inl ⟨by decide, by decide⟩)

theorem insertId_mem (sid : String) (l : List String) : sid ∈ insertId sid l := by
  unfold insertId
  split
  · assumption
  · simp

theorem filteredQueue_spec (n lab : Nat) (h : Handler) :
    filteredQueue (List.replicate n (true, 0, Handler.pass) ++ [(true, lab, h)])
      = List.replicate n (QEntry.mid 0 Handler.pass) ++ [QEntry.mid lab h] := by
  simp [filteredQueue, List.filter_append, List.filter_replicate, List.map_append,
    List.map_replicate]

theorem getElem?_append_replicate_lt {α : Type} {n j : Nat} (a : α) (l : List α)
    (hj : j < n) : (List.replicate n a ++ l)[j]? = some a := by
  rw [List.getElem?_append_left (by simpa using hj)]
  simp [List.getElem?_replicate, hj]

theorem getElem?_append_replicate_last {α : Type} (n : Nat) (a b : α) :
    (List.replicate n a ++ [b])[n]? = some b := by
  have h2 := List.getElem?_concat_length (List.replicate n a) b
  rw [List.length_replicate] at h2
  exact h2

/-- C9.  Domain error round trip: for a queue of any number of
pass-through handlers followed by a handler that throws a `SessionError`
with a localization path and parameters, dispatch catches the error,
converts it into exactly `session.text(path, param)` (the `localized`
fragment carrying that path and those parameters), sends it to the session,
and completes normally — the full event trace is an equation, so no other
reply and no crash is possible, and teardown still runs. -/
theorem C9_session_error_roundtrip (sess : SessionInfo) (st0 : DState) (n lab : Nat)
    (p : List String) (prm : List (String × String)) (hself : sess.selfId ≠ sess.userId) :
    (handleMessage sess
        (List.replicate n (true, 0, Handler.pass)
          ++ [(true, lab, Handler.throwE (JsError.sessionError p prm))])
        (3 * n + 3) st0).events
      = st0.events ++ (List.replicate n (Ev.invoked 0)
          ++ [Ev.invoked lab, Ev.sent (Frag.localized p prm),
              Ev.deregistered sess.id, Ev.emitted "middleware",
              Ev.releasedUser sess.id, Ev.releasedChannel sess.id])
          ++ flushEvents sess
    ∧ Ev.sent (Frag.localized p prm) ∈ (handleMessage sess
        (List.replicate n (true, 0, Handler.pass)
          ++ [(true, lab, Handler.throwE (JsError.sessionError p prm))])
        (3 * n + 3) st0).events := by
  have hq := filteredQueue_spec n lab (Handler.throwE (JsError.sessionError p prm))
  have hmain : (handleMessage sess
        (List.replicate n (true, 0, Handler.pass)
          ++ [(true, lab, Handler.throwE (JsError.sessionError p prm))])
        (3 * n + 3) st0).events
      = st0.events ++ (List.replicate n (Ev.invoked 0)
          ++ [Ev.invoked lab, Ev.sent (Frag.localized p prm),
              Ev.deregistered sess.id, Ev.emitted "middleware",
              Ev.releasedUser sess.id, Ev.releasedChannel sess.id])
          ++ flushEvents sess := by
    simp only [handleMessage, if_neg hself]
    rw [show (3 * n + 3) = 0 + 3 * n + 3 from by omega]
    have hrun := passChain n 0 sess.id
      { st0 with sessions := insertId sess.id st0.sessions,
                 queue := filteredQueue (List.replicate n (true, 0, Handler.pass)
                    ++ [(true, lab, Handler.throwE (JsError.sessionError p prm))]),
                 index := 0 } lab p prm
      (insertId_mem sess.id st0.sessions)
      (by
        intro j hj
        simp only [hq, Nat.zero_add]
        exact getElem?_append_replicate_lt _ _ hj)
      (by
        simp only [hq, Nat.zero_add]
        exact getElem?_append_replicate_last _ _ _)
    rw [runNext_of_ok hrun]
    simp only [sendStep, fragTruthy, if_true, teardown]
    simp [List.append_assoc]
  refine ⟨hmain, ?_⟩
  rw [hmain]
  simp

/-- Witness for C9: one pass-through handler then a thrower with key
"errors.no-permission"; the localized reply is sent. -/
theorem C9_witness :
    sessC9.selfId ≠ sessC9.userId
    ∧ Ev.sent (Frag.localized ["errors.no-permission"] []) ∈ (handleMessage sessC9
        (List.replicate 1 (true, 0, Handler.pass)
          ++ [(true, 7, Handler.throwE (JsError.sessionError ["errors.no-permission"] []))])
        (3 * 1 + 3) emptyDState).events := by
  refine ⟨by decide, ?_⟩
  exact (C9_session_error_roundtrip sessC9 emptyDState 1 7 ["errors.no-permission"] []
    (by decide)).2

/-- Witness for C10: a self message leaves the state untouched. -/
theorem C10_witness :
    sessC10.selfId = sessC10.userId
    ∧ handleMessage sessC10 [(true, 3, Handler.ret (Frag.text "hey"))] 9 emptyDState
      = emptyDState := by
  refine ⟨rfl, ?_⟩
  exact C10_self_message_ignored sessC10 [(true, 3, Handler.ret (Frag.text "hey"))] 9
    emptyDState rfl

/-- Witness for C1 at a concrete non-self session and the empty state. -/
theorem C1_witness :
    sessC1.selfId ≠ sessC1.userId
    ∧ sessC1.id ∉ (handleMessage sessC1 [] 1 emptyDState).sessions
    ∧ (∀ p ∈ (handleMessage sessC1 [] 1 emptyDState).userCache.keyMap, sessC1.id ∉ p.2.refs)
    ∧ (∀ p ∈ (handleMessage sessC1 [] 1 emptyDState).channelCache.keyMap, sessC1.id ∉ p.2.refs)
    ∧ countEv (Ev.deregistered sessC1.id) (handleMessage sessC1 [] 1 emptyDState).events
        = countEv (Ev.deregistered sessC1.id) emptyDState.events + 1
    ∧ countEv (Ev.releasedUser sessC1.id) (handleMessage sessC1 [] 1 emptyDState).events
        = countEv (Ev.releasedUser sessC1.id) emptyDState.events + 1
    ∧ countEv (Ev.releasedChannel sessC1.id) (handleMessage sessC1 [] 1 emptyDState).events
        = countEv (Ev.releasedChannel sessC1.id) emptyDState.events + 1 := by
  refine ⟨by decide, ?_⟩
  exact C1_teardown_runs_exactly_once sessC1 [] 1 emptyDState (by decide)

theorem stripMentions_no_at (selfId : List Char) (els : List MsgElement)
    (content : List Char) (atSelf : Bool) (h : headIsAt els = false) :
    stripMentions selfId els content atSelf = (els, content, atSelf) := by
  cases els with
  | nil => rfl
  | cons e rest =>
    cases e with
    | atEl id => simp [headIsAt] at h
    | textEl s => rfl

theorem process_parsed (cfg : IConfig) (sess : PSession) (env : DbEnv) :
    (process cfg sess env).parsed = (parsePhase cfg sess).1 := by
  simp only [process, attachUserPhase]
  repeat' split
  all_goals rfl

/-- C6 counterexample.  The claim says that whenever content starts with
a configured nickname followed by a separator the nickname is stripped and
`appel` is set.  For content "Bot," (nickname "Bot", separator ","), the
strip result is the empty string, which is falsy in JS, so line 140's
`if (result)` skips the assignment: `appel` stays false and the content is
unchanged. -/
theorem C6_counterexample :
    stripNickname [str "Bot"] (str "Bot,") = some []
    ∧ (process cfgC6 sessC6bad envNoDb).parsed.appel = false
    ∧ (process cfgC6 sessC6bad envNoDb).parsed.content = str "Bot," := by
  refine ⟨by decide, by decide, by decide⟩

/-- C6 amended.  (1) `_stripNickname` stops at the first configured
nickname whose match (prefix plus separator `^([,，]\\s*|\\s+)`) succeeds;
(2) at the `_process` level, for a session with no mention elements and the
default prefix configuration, when the nickname strip yields a NONEMPTY
remainder `r`, the parsed content is `r` and `appel` is true — the
nonemptiness proviso is what the counterexample forces; (3) in particular
input "Bot, hello" with nickname "Bot" parses to content "hello" with
`appel = true`. -/
theorem C6_nickname_amended :
    (∀ (pre post : List (List Char)) (nk content r : List Char),
      (∀ m ∈ pre, nickMatch m content = none) →
      nickMatch nk content = some r →
      goNick (pre ++ nk :: post) content = some r)
    ∧ (∀ (cfg : IConfig) (sess : PSession) (env : DbEnv) (r : List Char),
        headIsAt sess.elements = false →
        cfg.prefixVal = none →
        stripNickname cfg.nickname (jsTrim sess.content) = some r →
        r ≠ [] →
        (process cfg sess env).parsed.appel = true
          ∧ (process cfg sess env).parsed.content = r)
    ∧ (process cfgC6 sessC6 envNoDb).parsed
        = ⟨str "hello", true, some []⟩ := by
  refine ⟨?_, ?_, by decide⟩
  · intro pre
    induction pre with
    | nil =>
      intro post nk content r _ hm
      simp [goNick, hm]
    | cons m0 pre ih =>
      intro post nk content r hpre hm
      have h0 := hpre m0 (by simp)
      simp only [List.cons_append, goNick, h0]
      exact ih post nk content r (fun m hm2 => hpre m (by simp [hm2])) hm
  · intro cfg sess env r hat hpre hstrip hne
    rw [process_parsed]
    simp only [parsePhase]
    rw [stripMentions_no_at sess.selfId sess.elements (jsTrim sess.content) false hat]
    simp only [hat, Bool.not_false, Bool.true_or, if_true]
    rw [hstrip]
    have hbeq : (r == ([] : List Char)) = false := by
      cases r with
      | nil => exact absurd rfl hne
      | cons a as => rfl
    simp only [hbeq, Bool.false_eq_true, if_false]
    rw [hpre]
    have hrp : resolvePrefixes none = [[]] := by decide
    rw [hrp]
    simp [applyPrefixes, prefStep, listIsPrefixOf]

/-- Witness for C6's amended theorem at the claim's own instance
"Bot, hello". -/
theorem C6_witness :
    (headIsAt sessC6.elements = false ∧ cfgC6.prefixVal = none
      ∧ stripNickname cfgC6.nickname (jsTrim sessC6.content) = some (str "hello")
      ∧ str "hello" ≠ [])
    ∧ (process cfgC6 sessC6 envNoDb).parsed.appel = true
    ∧ (process cfgC6 sessC6 envNoDb).parsed.content = str "hello" := by
  refine ⟨⟨rfl, rfl, by decide, by decide⟩, ?_⟩
  exact C6_nickname_amended.2.1 cfgC6 sessC6 envNoDb (str "hello") rfl rfl
    (by decide) (by decide)

/-- C7 counterexample.  The claim says only the first matching prefix is
stripped and recorded.  The loop on lines 146-150 has no `break`: with
prefix list ["a", "b"] and content "abx", "a" is stripped first and then
"b" matches the already-stripped remainder, so both are stripped and the
recorded prefix is "b", not "a". -/
theorem C7_counterexample :
    applyPrefixes [str "a", str "b"] (str "abx") = (some (str "b"), str "x")
    ∧ (process cfgC7 sessC7 envNoDb).parsed.resolvedPrefix = some (str "b")
    ∧ (process cfgC7 sessC7 envNoDb).parsed.content = str "x"
    ∧ some (str "b") ≠ some (str "a") := by
  refine ⟨by decide, by decide, by decide, by decide⟩

/-- C7 amended.  The prefix loop folds over the whole resolved list: (1)
prefixes that do not match leave the accumulator unchanged; (2) the first
matching prefix IS stripped and recorded, after which the loop continues
over the remaining prefixes against the stripped content; (3) the claim's
conclusion — first match recorded, content stripped once — holds exactly
when no later prefix matches the stripped remainder. -/
theorem C7_last_match_amended :
    (∀ (acc : Option (List Char) × List Char) (ps : List (List Char)),
      (∀ q ∈ ps, listIsPrefixOf q acc.2 = false) →
      ps.foldl prefStep acc = acc)
    ∧ (∀ (l1 l2 : List (List Char)) (p content : List Char),
      (∀ q ∈ l1, listIsPrefixOf q content = false) →
      listIsPrefixOf p content = true →
      applyPrefixes (l1 ++ p :: l2) content
        = l2.foldl prefStep (some p, content.drop p.length))
    ∧ (∀ (l1 l2 : List (List Char)) (p content : List Char),
      (∀ q ∈ l1, listIsPrefixOf q content = false) →
      listIsPrefixOf p content = true →
      (∀ q ∈ l2, listIsPrefixOf q (content.drop p.length) = false) →
      applyPrefixes (l1 ++ p :: l2) content = (some p, content.drop p.length)) := by
  have hfix : ∀ (ps : List (List Char)) (acc : Option (List Char) × List Char),
      (∀ q ∈ ps, listIsPrefixOf q acc.2 = false) →
      ps.foldl prefStep acc = acc := by
    intro ps
    induction ps with
    | nil => intro acc _; rfl
    | cons q0 ps ih =>
      intro acc hq
      have h0 := hq q0 (by simp)
      rw [List.foldl_cons]
      have hstep : prefStep acc q0 = acc := by
        simp [prefStep, h0]
      rw [hstep]
      exact ih acc (fun q hq2 => hq q (by simp [hq2]))
  have hmid : ∀ (l1 l2 : List (List Char)) (p content : List Char),
      (∀ q ∈ l1, listIsPrefixOf q content = false) →
      listIsPrefixOf p content = true →
      applyPrefixes (l1 ++ p :: l2) content
        = l2.foldl prefStep (some p, content.drop p.length) := by
    intro l1 l2 p content h1 hp
    unfold applyPrefixes
    rw [List.foldl_append]
    rw [hfix l1 (none, content) h1]
    rw [List.foldl_cons]
    have hstep : prefStep (none, content) p = (some p, content.drop p.length) := by
      simp [prefStep, hp]
    rw [hstep]
  refine ⟨fun acc ps h => hfix ps acc h, hmid, ?_⟩
  intro l1 l2 p content h1 hp h2
  rw [hmid l1 l2 p content h1 hp]
  exact hfix l2 (some p, content.drop p.length) h2

/-- Witness for C7's amended theorem: a single-prefix list recovers
first-match stripping. -/
theorem C7_witness :
    ((∀ q ∈ ([] : List (List Char)), listIsPrefixOf q (str "px") = false)
      ∧ listIsPrefixOf (str "p") (str "px") = true
      ∧ (∀ q ∈ ([] : List (List Char)), listIsPrefixOf q ((str "px").drop (str "p").length) = false))
    ∧ applyPrefixes ([] ++ str "p" :: []) (str "px")
      = (some (str "p"), (str "px").drop (str "p").length) := by
  refine ⟨⟨by simp, by decide, by simp⟩, ?_⟩
  exact C7_last_match_amended.2.2 [] [] (str "p") (str "px") (by simp) (by decide) (by simp)
